import Mathlib

/-!
A Lean model of `shs_identification.py`, the network-topology engine for
rural-electrification planning: SHS price lookup, pairwise distance,
minimum-spanning-tree construction, adjacency queries and recursive branch
extraction, together with theorems checking the module's specification.

Modelling conventions, chosen once and used throughout:

* pandas DataFrames become Lean lists of structures; the row label/index
  becomes an explicit `label` field (for nodes) or is dropped when no
  operation reads it (for links, whose `label` column is never consulted).
* floats become `ℚ`.  The Python `distance_between_nodes` returns
  `sqrt(dx^2 + dy^2)`; the model returns the *squared* distance
  `dx^2 + dy^2`.  `sqrt` is strictly monotone on nonnegative arguments, so
  every use the module makes of a distance — comparing two distances when
  picking a minimum-spanning-tree edge, and testing `> 0` when the sparse
  matrix conversion drops zero entries — is unchanged by this encoding, and
  it keeps every definition computable.
* `np.infty`, returned by `shs_price_for_load` when no catalog row fits,
  becomes the `none` of an `Option ℚ` result; `priceLE` orders these values
  with `none` as the top element, exactly the role of the infinite sentinel.
* `raise` becomes an `Except.error` result; the `return np.infty` that the
  Python source places after the `raise` in `distance_between_nodes` is
  unreachable (a `raise` transfers control) and therefore has no image in
  the model.
* the Python `set(...)` iterated over in `neighoring_nodes` has an
  unspecified iteration order; the model fixes the deterministic order given
  by `List.dedup` of the concatenated endpoint columns.  No theorem below
  depends on which order is chosen, and the counterexamples exhibited remain
  counterexamples under any fixed iteration order.
-/

/-- One row of the SHS characteristics DataFrame: `price[$]`, `capacity[Wh]`,
`max_power[W]`. -/
structure ShsRow where
  price : ℚ
  capacity : ℚ
  max_power : ℚ
deriving DecidableEq

/-- The comparison used by `sort_values(by=['capacity[Wh]'])`. -/
def capLE (a b : ShsRow) : Prop :=
  a.capacity ≤ b.capacity

instance : DecidableRel capLE :=
  fun a b => inferInstanceAs (Decidable (a.capacity ≤ b.capacity))

instance : IsTotal ShsRow capLE :=
  ⟨fun a b => le_total a.capacity b.capacity⟩

instance : IsTrans ShsRow capLE :=
  ⟨fun _ _ _ h1 h2 => le_trans h1 h2⟩

/-- `shs_characteristics.sort_values(by=['capacity[Wh]'])`: the catalog in
ascending order of capacity.  pandas' default sort kind leaves the relative
order of equal-capacity rows unspecified; the model fixes the stable
(catalog-order) tie-break, the order the specification itself names, and no
claim below depends on the tie order. -/
def sortByCapacity (shs_characteristics : List ShsRow) : List ShsRow :=
  List.insertionSort capLE shs_characteristics

/-- The per-row test of the scan loop in `shs_price_for_load`:
`row['capacity[Wh]'] >= capacity and row['max_power[W]'] >= max_power`. -/
def rowFits (capacity max_power : ℚ) (r : ShsRow) : Bool :=
  decide (capacity ≤ r.capacity) && decide (max_power ≤ r.max_power)

/-- The `for ... : if ... : return row['price[$]']` loop of
`shs_price_for_load`, over an already sorted row list. -/
def scanRows (capacity max_power : ℚ) : List ShsRow → Option ℚ
  | [] => none
  | r :: rs =>
    if rowFits capacity max_power r then some r.price
    else scanRows capacity max_power rs

/-- `shs_price_for_load(capacity, max_power, shs_characteristics)`
(shs_identification.py lines 7-35): scan the catalog in ascending order of
capacity and return the price of the first row meeting both requirements;
`none` models the `np.infty` returned when no row fits. -/
def shs_price_for_load (capacity max_power : ℚ)
    (shs_characteristics : List ShsRow) : Option ℚ :=
  scanRows capacity max_power (sortByCapacity shs_characteristics)

/-- Order on prices with the infinite sentinel (`none`, i.e. `np.infty`)
above every finite price. -/
def priceLE : Option ℚ → Option ℚ → Prop
  | _, none => True
  | none, some _ => False
  | some a, some b => a ≤ b

instance : ∀ a b : Option ℚ, Decidable (priceLE a b)
  | none, none => Decidable.isTrue trivial
  | some _, none => Decidable.isTrue trivial
  | none, some _ => Decidable.isFalse id
  | some a, some b => inferInstanceAs (Decidable (a ≤ b))

/-- One row of the nodes DataFrame: its index label and the coordinate
columns read by `distance_between_nodes`. -/
structure Node where
  label : String
  x_coordinate : ℚ
  y_coordinate : ℚ
deriving DecidableEq

/-- Label lookup in the node DataFrame (`node in node_df.index` /
`node_df["x_coordinate"][node]`): the first row carrying the label. -/
def nodeLookup (l : String) (node_df : List Node) : Option Node :=
  node_df.find? (fun n => n.label == l)

/-- `distance_between_nodes(node1, node2, node_df)` (lines 38-62).  When a
label is missing the Python raises `Warning(f"nodes ... are not in
node_df")`; the `return np.infty` written after the `raise` is dead code, so
the model's error branch carries only the error.  The `ok` value is the
squared Euclidean distance (see the module comment). -/
def distance_between_nodes (node1 node2 : String) (node_df : List Node) :
    Except String ℚ :=
  match nodeLookup node1 node_df, nodeLookup node2 node_df with
  | some a, some b =>
    Except.ok ((a.x_coordinate - b.x_coordinate) ^ 2
      + (a.y_coordinate - b.y_coordinate) ^ 2)
  | _, _ =>
    Except.error ("nodes " ++ node1 ++ " and " ++ node2 ++ " are not in node_df")

/-- One row of the links DataFrame produced by `mst_links`: endpoint labels
and the (squared, see module comment) distance.  The derived `label` column
`"(a, b)"` is never read by any query, so it is not materialised. -/
structure Link where
  node_a : String
  node_b : String
  distance : ℚ
deriving DecidableEq

/-- `nodes_df.index[i]` for the positional index `i`. -/
def labelAt (nodes_df : List Node) (i : Nat) : String :=
  ((nodes_df[i]?).map Node.label).getD ""

/-- Entry `X[j][i]` of the dense distance matrix built in `mst_links`:
`distance_between_nodes(nodes_df.index[i], nodes_df.index[j], nodes_df)`.
The error branch is unreachable because both labels come from the index. -/
def weightAt (nodes_df : List Node) (i j : Nat) : ℚ :=
  match distance_between_nodes (labelAt nodes_df i) (labelAt nodes_df j) nodes_df with
  | Except.ok d => d
  | Except.error _ => 0

/-- The edges of the graph that `scipy.sparse.csgraph.minimum_spanning_tree`
actually sees, crossing from the visited set to an unvisited vertex.
`csr_matrix(X)` stores only nonzero entries, so a pair at squared distance 0
(coincident coordinates) yields NO edge — this is the defect exhibited for
claim C2. -/
def crossingEdges (nodes_df : List Node) (n : Nat) (visited : List Nat) :
    List (Nat × Nat) :=
  ((List.range n).filter (fun v => v ∉ visited)).flatMap
    (fun v => visited.filterMap
      (fun u => if 0 < weightAt nodes_df u v then some (u, v) else none))

/-- Minimum-weight candidate edge, ties broken towards the earlier
candidate: a deterministic stand-in for scipy's heap order (the spec mandates
determinism but no particular tie-break, and no claim depends on it). -/
def pickMinEdge (nodes_df : List Node) : List (Nat × Nat) → Option (Nat × Nat)
  | [] => none
  | e :: es =>
    match pickMinEdge nodes_df es with
    | none => some e
    | some f =>
      if weightAt nodes_df e.1 e.2 ≤ weightAt nodes_df f.1 f.2 then some e else some f

/-- Modelled from scipy's documented behaviour: Prim's algorithm started at
vertex 0, restarting at the smallest unvisited vertex when no crossing edge
exists (so a disconnected input yields a spanning forest, silently).  Each
retained edge is recorded at its upper-triangle position `(j, i)`, `j < i`,
the position at which `mst_links` stored it in `X`. -/
def primLoop (nodes_df : List Node) (n : Nat) :
    Nat → List Nat → List (Nat × Nat) → List (Nat × Nat)
  | 0, _, es => es
  | k + 1, visited, es =>
    match (List.range n).filter (fun v => v ∉ visited) with
    | [] => es
    | u0 :: _ =>
      match pickMinEdge nodes_df (crossingEdges nodes_df n visited) with
      | some (u, v) =>
        primLoop nodes_df n k (visited ++ [v]) (es ++ [(Nat.min u v, Nat.max u v)])
      | none => primLoop nodes_df n k (visited ++ [u0]) es

/-- The set of tree edges `A[j][i] > 0` after
`minimum_spanning_tree(csr_matrix(X)).toarray()`. -/
def primEdges (nodes_df : List Node) : List (Nat × Nat) :=
  primLoop nodes_df nodes_df.length nodes_df.length [] []

/-- `mst_links(nodes_df)` (lines 65-127): build the dense pairwise distance
matrix, run the sparse minimum-spanning-tree routine, then emit one link per
retained entry `A[j][i] > 0` with `i > j`, with `node_a = nodes_df.index[i]`,
`node_b = nodes_df.index[j]` and the recomputed distance. -/
def mst_links (nodes_df : List Node) : List Link :=
  let n := nodes_df.length
  let es := primEdges nodes_df
  (List.range n).flatMap (fun i =>
    (List.range n).filterMap (fun j =>
      if j < i ∧ (j, i) ∈ es then
        some { node_a := labelAt nodes_df i, node_b := labelAt nodes_df j,
               distance := weightAt nodes_df i j }
      else none))

/-- `count_number_of_connections(node_index, links_df)` (lines 130-153): the
number of rows of the links DataFrame touching the node at either endpoint. -/
def count_number_of_connections (node_index : String) (links_df : List Link) : Nat :=
  (links_df.filter
    (fun l => l.node_a == node_index || l.node_b == node_index)).length

/-- `are_nodes_connected(node_a, node_b, links_df)` (lines 191-219): true iff
some link row joins the two labels, in either orientation. -/
def are_nodes_connected (node_a node_b : String) (links_df : List Link) : Bool :=
  links_df.any (fun l =>
    (l.node_a == node_a && l.node_b == node_b)
      || (l.node_a == node_b && l.node_b == node_a))

/-- The Python `set(list(links_df['node_a']) + list(links_df['node_b']))`
iterated over in `neighoring_nodes`, in the fixed order given by
`List.dedup` (see the module comment on iteration order). -/
def linkEndpointLabels (links_df : List Link) : List String :=
  (links_df.map Link.node_a ++ links_df.map Link.node_b).dedup

/-- `neighoring_nodes(node_index, links_df)` (lines 222-246): every endpoint
label of the link set that `are_nodes_connected` ties to `node_index`. -/
def neighoring_nodes (node_index : String) (links_df : List Link) : List String :=
  (linkEndpointLabels links_df).filter
    (fun z => are_nodes_connected node_index z links_df)

/-- The first loop of `nodes_on_branch`: append each frontier node to the
accumulator unless already present. -/
def appendNew (acc : List String) (xs : List String) : List String :=
  xs.foldl (fun a b => if b ∈ a then a else a ++ [b]) acc

/-- Termination measure for `nodes_on_branch`: how many endpoint labels of
the link set are not yet in the accumulator. -/
def remaining (links_df : List Link) (acc : List String) : Nat :=
  ((linkEndpointLabels links_df).filter (fun z => z ∉ acc)).length

theorem mem_appendNew_left {acc : List String} (xs : List String) {a : String}
    (h : a ∈ acc) : a ∈ appendNew acc xs := by
  induction xs generalizing acc with
  | nil => exact h
  | cons b t ih =>
    simp only [appendNew, List.foldl_cons] at *
    by_cases hb : b ∈ acc
    · simpa [hb] using ih h
    · simp only [hb, if_false]
      exact ih (by simp [h])

theorem mem_appendNew_right {acc xs : List String} {a : String}
    (h : a ∈ xs) : a ∈ appendNew acc xs := by
  induction xs generalizing acc with
  | nil => cases h
  | cons b t ih =>
    simp only [appendNew, List.foldl_cons]
    rcases List.mem_cons.mp h with rfl | ht
    · by_cases hb : a ∈ acc
      · simp only [hb, if_true]
        exact mem_appendNew_left t hb
      · simp only [hb, if_false]
        exact mem_appendNew_left t (by simp)
    · by_cases hb : b ∈ acc <;> simp only [hb, if_true, if_false] <;> exact ih ht

theorem appendNew_eq_append (xs : List String) :
    ∀ acc : List String, ∃ t, appendNew acc xs = acc ++ t := by
  induction xs with
  | nil => exact fun acc => ⟨[], by simp [appendNew]⟩
  | cons b t ih =>
    intro acc
    simp only [appendNew, List.foldl_cons]
    by_cases hb : b ∈ acc
    · simpa only [hb, if_true] using ih acc
    · simp only [hb, if_false]
      obtain ⟨t1, ht1⟩ := ih (acc ++ [b])
      exact ⟨b :: t1, by simpa [appendNew] using ht1⟩

theorem remaining_le_of_sub (links_df : List Link) {acc acc2 : List String}
    (h : ∀ z, z ∈ acc → z ∈ acc2) :
    remaining links_df acc2 ≤ remaining links_df acc := by
  unfold remaining
  rw [← List.countP_eq_length_filter, ← List.countP_eq_length_filter]
  refine List.countP_mono_left ?_
  intro z _ hz
  simp only [decide_eq_true_eq] at *
  exact fun hmem => hz (h z hmem)

theorem remaining_step (links_df : List Link) (acc1 D : List String)
    (hD : D.Nodup) (hmem : ∀ z ∈ D, z ∈ linkEndpointLabels links_df ∧ z ∉ acc1) :
    remaining links_df (acc1 ++ D) + D.length ≤ remaining links_df acc1 := by
  classical
  unfold remaining
  set L := linkEndpointLabels links_df with hL
  set M := L.filter (fun z => z ∉ acc1) with hM
  have hMnodup : M.Nodup := List.Nodup.filter _ (List.nodup_dedup _)
  have hsplit : L.filter (fun z => z ∉ acc1 ++ D) = M.filter (fun z => z ∉ D) := by
    rw [hM, List.filter_filter]
    apply List.filter_congr
    intro z _
    by_cases h1 : z ∈ acc1 <;> by_cases h2 : z ∈ D <;>
      simp [h1, h2, List.mem_append]
  have hpart : M.length =
      (M.filter (fun z => z ∉ D)).length + (M.filter (fun z => z ∈ D)).length := by
    have := @List.length_eq_length_filter_add _ M (fun z => decide (z ∉ D))
    simpa [decide_not] using this
  have hsub : D ⊆ M.filter (fun z => z ∈ D) := by
    intro z hz
    rw [List.mem_filter]
    refine ⟨?_, by simpa using hz⟩
    rw [hM, List.mem_filter]
    exact ⟨(hmem z hz).1, by simpa using (hmem z hz).2⟩
  have hlen : D.length ≤ (M.filter (fun z => z ∈ D)).length :=
    (List.subperm_of_subset hD hsub).length_le
  rw [hsplit]
  omega

theorem nodes_decr (stam node : String) (rest acc : List String)
    (links_df : List Link) :
    remaining links_df
        (appendNew acc (node :: rest) ++
          (neighoring_nodes node links_df).filter
            (fun z => z ≠ stam ∧ z ∉ appendNew acc (node :: rest)))
      + ((neighoring_nodes node links_df).filter
            (fun z => z ≠ stam ∧ z ∉ appendNew acc (node :: rest))).length
      < remaining links_df acc + (node :: rest).length := by
  set acc1 := appendNew acc (node :: rest) with hacc1
  set D := (neighoring_nodes node links_df).filter
      (fun z => z ≠ stam ∧ z ∉ acc1) with hD
  have hDnodup : D.Nodup := by
    rw [hD]
    exact List.Nodup.filter _ (List.Nodup.filter _ (List.nodup_dedup _))
  have hDmem : ∀ z ∈ D, z ∈ linkEndpointLabels links_df ∧ z ∉ acc1 := by
    intro z hz
    rw [hD, List.mem_filter] at hz
    have h1 : z ∈ neighoring_nodes node links_df := hz.1
    have h2 := hz.2
    simp only [decide_eq_true_eq] at h2
    unfold neighoring_nodes at h1
    rw [List.mem_filter] at h1
    exact ⟨h1.1, h2.2⟩
  have step := remaining_step links_df acc1 D hDnodup hDmem
  have mono : remaining links_df acc1 ≤ remaining links_df acc :=
    @remaining_le_of_sub links_df acc acc1
      (fun z hz => mem_appendNew_left (node :: rest) hz)
  have hle : remaining links_df (acc1 ++ D) + D.length ≤ remaining links_df acc :=
    le_trans step mono
  simp only [List.length_cons]
  omega

/-- `nodes_on_branch(stam_node, branch_first_nodes, links_df,
nodes_in_branch)` (lines 249-293).  The Python first appends every frontier
node not yet present to `nodes_in_branch` (a no-op for an empty frontier),
returns the accumulator when the frontier is empty, and otherwise — because
the `return` sits INSIDE the `for node in branch_first_nodes` loop — expands
only the FIRST frontier node: it computes that node's neighbours, drops the
stem and already-recorded nodes, extends the accumulator and recurses with
the first node as the new stem.  The sibling frontier nodes are recorded but
never expanded; this early return is the defect exhibited for claim C1. -/
def nodes_on_branch (stam_node : String) (branch_first_nodes : List String)
    (links_df : List Link) (nodes_in_branch : List String) : List String :=
  match branch_first_nodes with
  | [] => nodes_in_branch
  | node :: rest =>
    let acc1 := appendNew nodes_in_branch (node :: rest)
    let downstream := (neighoring_nodes node links_df).filter
      (fun z => z ≠ stam_node ∧ z ∉ acc1)
    nodes_on_branch node downstream links_df (acc1 ++ downstream)
termination_by remaining links_df nodes_in_branch + branch_first_nodes.length
decreasing_by
  exact nodes_decr stam_node node rest nodes_in_branch links_df

/-- The contents of the caller's `nodes_in_branch` list after
`nodes_on_branch` returns.  In the Python, `nodes_in_branch.append(...)` and
`nodes_in_branch += downstream_nodes` mutate the argument list in place and
the function returns that very list object, so the post-call contents of the
caller's accumulator are exactly the returned list. -/
def branchAccAfterCall (stam_node : String) (branch_first_nodes : List String)
    (links_df : List Link) (nodes_in_branch : List String) : List String :=
  nodes_on_branch stam_node branch_first_nodes links_df nodes_in_branch

/-- Star topology: center `A` linked to `B`, `C`, `D` only (claim C8). -/
def starLinks : List Link :=
  [⟨"A", "B", 1⟩, ⟨"A", "C", 1⟩, ⟨"A", "D", 1⟩]

/-- A tree in which both children of the stem `A` matter: `A—B`, `A—C`,
`B—D`, `C—E`.  Whichever frontier node the traversal expands first, the
grandchild hanging under the sibling is lost. -/
def treeWithGrandchild : List Link :=
  [⟨"A", "B", 1⟩, ⟨"A", "C", 1⟩, ⟨"B", "D", 1⟩, ⟨"C", "E", 1⟩]

/-- Two nodes with coincident coordinates: their only possible spanning-tree
edge has distance zero. -/
def coincidentPair : List Node :=
  [⟨"node0", 0, 0⟩, ⟨"node1", 0, 0⟩]

/-- Claim C8: on the star topology with center `A` connected to `B`, `C`,
`D` only, `nodes_on_branch("A", ["B","C","D"], links, [])` returns exactly
`["B","C","D"]` — all three siblings, not just the first child's subtree. -/
theorem nodes_on_branch_star_all_children :
    nodes_on_branch "A" ["B", "C", "D"] starLinks [] = ["B", "C", "D"] := by
  simp +decide [nodes_on_branch, appendNew, neighoring_nodes, linkEndpointLabels,
    are_nodes_connected, starLinks]

/-- Claim C1 (code-defect evidence): on the tree `A—B`, `A—C`, `B—D`, `C—E`
with stem `A`, frontier equal to `A`'s full neighbour list `["B","C"]` and an
empty accumulator, `nodes_on_branch` returns only `["B","C","D"]`: the tree
node `E` (child of the sibling `C`, distinct from the stem) is missing,
because the `return` inside the frontier loop expands only the first
frontier node. -/
theorem nodes_on_branch_omits_sibling_subtree :
    neighoring_nodes "A" treeWithGrandchild = ["B", "C"]
    ∧ nodes_on_branch "A" (neighoring_nodes "A" treeWithGrandchild)
        treeWithGrandchild [] = ["B", "C", "D"]
    ∧ "E" ∈ linkEndpointLabels treeWithGrandchild
    ∧ "E" ∉ nodes_on_branch "A" (neighoring_nodes "A" treeWithGrandchild)
        treeWithGrandchild [] := by
  have hn : neighoring_nodes "A" treeWithGrandchild = ["B", "C"] := by
    simp +decide [neighoring_nodes, linkEndpointLabels, are_nodes_connected,
      treeWithGrandchild]
  have hb : nodes_on_branch "A" (neighoring_nodes "A" treeWithGrandchild)
      treeWithGrandchild [] = ["B", "C", "D"] := by
    rw [hn]
    simp +decide [nodes_on_branch, appendNew, neighoring_nodes,
      linkEndpointLabels, are_nodes_connected, treeWithGrandchild]
  refine ⟨hn, hb, ?_, ?_⟩
  · simp +decide [linkEndpointLabels, treeWithGrandchild]
  · rw [hb]
    decide

theorem coincident_weight_zero : ∀ u v, weightAt coincidentPair u v = 0 := by
  have hlab : ∀ i : Nat, labelAt coincidentPair i = "node0"
      ∨ labelAt coincidentPair i = "node1" ∨ labelAt coincidentPair i = "" := by
    intro i
    match i with
    | 0 => left; rfl
    | 1 => right; left; rfl
    | n + 2 =>
      right; right
      simp [labelAt, coincidentPair]
  intro u v
  rcases hlab u with h1 | h1 | h1 <;> rcases hlab v with h2 | h2 | h2 <;>
    (unfold weightAt; rw [h1, h2];
     simp [distance_between_nodes, nodeLookup, coincidentPair])

theorem coincident_crossing_empty :
    ∀ visited, crossingEdges coincidentPair 2 visited = [] := by
  intro visited
  simp [crossingEdges, coincident_weight_zero]

theorem coincident_prim_empty : primEdges coincidentPair = [] := by
  have hlen : coincidentPair.length = 2 := rfl
  rw [primEdges, hlen]
  rw [show primLoop coincidentPair 2 2 = primLoop coincidentPair 2 (1 + 1) from rfl]
  simp only [primLoop, coincident_crossing_empty, pickMinEdge]
  norm_num [List.range_succ]

/-- Claim C2 (code-defect evidence): a two-node set with coincident
coordinates has `n = 2`, so a spanning tree must contain exactly one
(zero-length) link, yet `mst_links` returns an empty link set: the
zero-distance entry is dropped by the `csr_matrix` conversion, so the
spanning-tree routine never sees the edge. -/
theorem mst_links_zero_distance_pair_empty :
    coincidentPair.length = 2 ∧ mst_links coincidentPair = [] := by
  refine ⟨rfl, ?_⟩
  rw [mst_links]
  simp only [coincident_prim_empty]
  simp

/-- Claim C9 (counterexample): the accumulator list is NOT left unchanged by
`nodes_on_branch`.  Calling with stem `A`, frontier `["B"]`, no links and the
empty accumulator leaves the caller's list — which aliases the returned
list — holding `["B"]`, not its original empty contents. -/
theorem branch_acc_mutated :
    branchAccAfterCall "A" ["B"] [] [] = ["B"]
    ∧ (["B"] : List String) ≠ [] := by
  constructor
  · simp +decide [branchAccAfterCall, nodes_on_branch, appendNew,
      neighoring_nodes, linkEndpointLabels, are_nodes_connected]
  · decide

/-- Claim C9 (amended): the queries and builders of the model are pure, and
the one mutation the reference performs is an extension of the branch
accumulator: after `nodes_on_branch` returns, the caller's accumulator list
holds its original elements followed by the newly discovered nodes. -/
theorem branch_acc_extends (stam_node : String) (branch_first_nodes : List String)
    (links_df : List Link) (nodes_in_branch : List String) :
    ∃ t, branchAccAfterCall stam_node branch_first_nodes links_df nodes_in_branch
      = nodes_in_branch ++ t := by
  unfold branchAccAfterCall
  induction stam_node, branch_first_nodes, links_df, nodes_in_branch
    using nodes_on_branch.induct with
  | case1 stam links acc =>
    exact ⟨[], by simp [nodes_on_branch]⟩
  | case2 stam links acc node rest acc1 downstream =>
    rename_i ih
    simp only [nodes_on_branch]
    obtain ⟨t1, h1⟩ := ih
    obtain ⟨t0, h0⟩ := appendNew_eq_append (node :: rest) acc
    simp only [downstream, acc1] at h1
    rw [h1]
    refine ⟨t0 ++ ((neighoring_nodes node links).filter
      (fun z => z ≠ stam ∧ z ∉ appendNew acc (node :: rest)) ++ t1), ?_⟩
    simp [h0, List.append_assoc]

theorem acc_subset_result (stam_node : String) (branch_first_nodes : List String)
    (links_df : List Link) (nodes_in_branch : List String) :
    nodes_in_branch ⊆
      nodes_on_branch stam_node branch_first_nodes links_df nodes_in_branch := by
  induction stam_node, branch_first_nodes, links_df, nodes_in_branch
    using nodes_on_branch.induct with
  | case1 stam links acc =>
    intro z hz
    simpa [nodes_on_branch] using hz
  | case2 stam links acc node rest acc1 downstream =>
    rename_i ih
    intro z hz
    simp only [nodes_on_branch]
    exact ih (List.mem_append_left _ (mem_appendNew_left _ hz))

/-- Claim C10: for every link set, stem, frontier and accumulator, every
label of the frontier list appears in the list returned by
`nodes_on_branch`: the first loop appends each frontier member to the
accumulator before any reachability through the link set is examined, and
the accumulator only grows from there, so frontier nodes appear in the
output even if they touch no link. -/
theorem frontier_subset_branch_result (stam_node : String)
    (branch_first_nodes : List String) (links_df : List Link)
    (nodes_in_branch : List String) (z : String)
    (hz : z ∈ branch_first_nodes) :
    z ∈ nodes_on_branch stam_node branch_first_nodes links_df nodes_in_branch := by
  cases branch_first_nodes with
  | nil => cases hz
  | cons node rest =>
    simp only [nodes_on_branch]
    exact acc_subset_result _ _ _ _
      (List.mem_append_left _ (mem_appendNew_right hz))

/-- Witness for claim C10 at a concrete input: `C` is in the frontier
`["B","C"]` and indeed appears in the result on the star topology, although
the traversal never expands it. -/
theorem frontier_subset_branch_result_witness :
    ("C" ∈ ["B", "C"]) ∧ "C" ∈ nodes_on_branch "A" ["B", "C"] starLinks [] :=
  ⟨by decide,
    frontier_subset_branch_result "A" ["B", "C"] starLinks [] "C" (by decide)⟩

/-- A one-node DataFrame used to witness the missing-label error path. -/
def singleNode : List Node :=
  [⟨"node0", 2, 3⟩]

/-- Claim C5: whenever at least one of the two labels is absent from the node
set, `distance_between_nodes` fails with the explicit "nodes ... are not in
node_df" error — the `raise` fires and stops — and in particular never
produces a distance value: the `return np.infty` after the `raise` is
unreachable. -/
theorem distance_between_nodes_error_on_missing (node1 node2 : String)
    (node_df : List Node)
    (h : (∀ n ∈ node_df, n.label ≠ node1) ∨ (∀ n ∈ node_df, n.label ≠ node2)) :
    (∃ msg, distance_between_nodes node1 node2 node_df = Except.error msg)
    ∧ ∀ q : ℚ, distance_between_nodes node1 node2 node_df ≠ Except.ok q := by
  have hnone : nodeLookup node1 node_df = none ∨ nodeLookup node2 node_df = none := by
    rcases h with h | h
    · left
      rw [nodeLookup, List.find?_eq_none]
      intro n hn
      simpa using h n hn
    · right
      rw [nodeLookup, List.find?_eq_none]
      intro n hn
      simpa using h n hn
  rcases hA : nodeLookup node1 node_df with _ | a <;>
    rcases hB : nodeLookup node2 node_df with _ | b <;>
    simp [distance_between_nodes, hA, hB] <;>
    simp [hA, hB] at hnone

/-- Witness for claim C5: looking up the absent label `ghost` in a one-node
set yields the error, never a value. -/
theorem distance_between_nodes_error_on_missing_witness :
    (∀ n ∈ singleNode, n.label ≠ "ghost")
    ∧ ((∃ msg, distance_between_nodes "ghost" "node0" singleNode
          = Except.error msg)
       ∧ ∀ q : ℚ, distance_between_nodes "ghost" "node0" singleNode
          ≠ Except.ok q) :=
  ⟨by decide,
    distance_between_nodes_error_on_missing "ghost" "node0" singleNode
      (Or.inl (by decide))⟩

/-- Claim C6: for every link set and labels `x`, `y`: `y` is a member of
`neighoring_nodes(x, links)` if and only if `are_nodes_connected(x, y,
links)` holds, the connection test looking at both orientations of the
unordered pair. -/
theorem mem_neighbors_iff_connected (links_df : List Link) (x y : String) :
    y ∈ neighoring_nodes x links_df ↔ are_nodes_connected x y links_df = true := by
  constructor
  · intro hy
    exact (List.mem_filter.mp hy).2
  · intro hc
    refine List.mem_filter.mpr ⟨?_, hc⟩
    rw [are_nodes_connected, List.any_eq_true] at hc
    obtain ⟨l, hl, hcond⟩ := hc
    rw [linkEndpointLabels, List.mem_dedup, List.mem_append]
    simp only [Bool.or_eq_true, Bool.and_eq_true, beq_iff_eq] at hcond
    rcases hcond with ⟨_, hb⟩ | ⟨ha, _⟩
    · right
      exact List.mem_map.mpr ⟨l, hl, hb⟩
    · left
      exact List.mem_map.mpr ⟨l, hl, ha⟩

theorem scanRows_eq_find (c p : ℚ) :
    ∀ l : List ShsRow, scanRows c p l = (l.find? (rowFits c p)).map ShsRow.price := by
  intro l
  induction l with
  | nil => rfl
  | cons r rs ih =>
    by_cases h : rowFits c p r
    · simp [scanRows, h, List.find?_cons_of_pos _ h]
    · simp [scanRows, h, List.find?_cons_of_neg _ h, ih]

/-- Claim C4: `shs_price_for_load` scans a capacity-ascending permutation of
the catalog and returns the price of the first row fitting both
requirements; when no row fits (the empty catalog included) it returns the
infinite sentinel (`none`), not an error. -/
theorem shs_price_first_fit (capacity max_power : ℚ) (cat : List ShsRow) :
    shs_price_for_load capacity max_power cat
      = ((sortByCapacity cat).find? (rowFits capacity max_power)).map ShsRow.price
    ∧ (sortByCapacity cat).Perm cat
    ∧ List.Sorted capLE (sortByCapacity cat)
    ∧ ((∀ r ∈ cat, rowFits capacity max_power r = false) →
        shs_price_for_load capacity max_power cat = none) := by
  refine ⟨scanRows_eq_find _ _ _, List.perm_insertionSort _ _,
    List.sorted_insertionSort _ _, ?_⟩
  intro hall
  rw [shs_price_for_load, scanRows_eq_find]
  have hfind : (sortByCapacity cat).find? (rowFits capacity max_power) = none :=
    List.find?_eq_none.mpr (fun r hr => by
      rw [hall r ((List.perm_insertionSort capLE cat).mem_iff.mp hr)]
      simp)
  rw [hfind]
  rfl

/-- Witness for claim C4: in a catalog whose single unit is too small, no
row fits and the lookup returns the sentinel. -/
theorem shs_price_first_fit_witness :
    (∀ r ∈ ([⟨100, 50, 5⟩] : List ShsRow), rowFits 60 10 r = false)
    ∧ shs_price_for_load 60 10 [⟨100, 50, 5⟩] = none :=
  ⟨by decide, (shs_price_first_fit 60 10 [⟨100, 50, 5⟩]).2.2.2 (by decide)⟩

/-- A catalog on which the price lookup is not monotone: the small unit is
expensive (price 100, capacity 10, power 10), the large one cheap (price 1,
capacity 20, power 5). -/
def nonMonotoneCatalog : List ShsRow :=
  [⟨100, 10, 10⟩, ⟨1, 20, 5⟩]

/-- Claim C3 (counterexample): raising the required capacity from 5 to 15
(at required power 1) makes the returned price DROP from 100 to 1 on
`nonMonotoneCatalog`, so the lookup is not monotonic for every catalog. -/
theorem shs_price_not_monotone :
    (5 : ℚ) ≤ 15 ∧ (1 : ℚ) ≤ 1
    ∧ shs_price_for_load 5 1 nonMonotoneCatalog = some 100
    ∧ shs_price_for_load 15 1 nonMonotoneCatalog = some 1
    ∧ ¬ priceLE (shs_price_for_load 5 1 nonMonotoneCatalog)
        (shs_price_for_load 15 1 nonMonotoneCatalog) := by
  decide

theorem rowFits_mono {c1 p1 c2 p2 : ℚ} (hc : c1 ≤ c2) (hp : p1 ≤ p2)
    {r : ShsRow} (h : rowFits c2 p2 r = true) : rowFits c1 p1 r = true := by
  rw [rowFits, Bool.and_eq_true, decide_eq_true_eq, decide_eq_true_eq] at *
  exact ⟨le_trans hc h.1, le_trans hp h.2⟩

theorem scanRows_some_mem (c p : ℚ) :
    ∀ (l : List ShsRow) (q : ℚ), scanRows c p l = some q → ∃ r ∈ l, q = r.price := by
  intro l
  induction l with
  | nil => intro q h; cases h
  | cons r rs ih =>
    intro q h
    by_cases hf : rowFits c p r
    · rw [scanRows, if_pos hf] at h
      exact ⟨r, by simp, (Option.some_injective _ h).symm⟩
    · rw [scanRows, if_neg hf] at h
      obtain ⟨s, hs, hq⟩ := ih q h
      exact ⟨s, by simp [hs], hq⟩

theorem scanRows_mono (c1 p1 c2 p2 : ℚ) (hc : c1 ≤ c2) (hp : p1 ≤ p2) :
    ∀ l : List ShsRow, l.Pairwise (fun a b => a.price ≤ b.price) →
      priceLE (scanRows c1 p1 l) (scanRows c2 p2 l) := by
  intro l
  induction l with
  | nil => intro _; exact trivial
  | cons r rs ih =>
    intro hpw
    rw [List.pairwise_cons] at hpw
    obtain ⟨hhead, htail⟩ := hpw
    by_cases h2 : rowFits c2 p2 r
    · have h1 : rowFits c1 p1 r = true := rowFits_mono hc hp h2
      rw [scanRows, scanRows, if_pos h1, if_pos h2]
      exact le_refl r.price
    · by_cases h1 : rowFits c1 p1 r
      · rw [scanRows, scanRows, if_pos h1, if_neg h2]
        cases hs : scanRows c2 p2 rs with
        | none => exact trivial
        | some q =>
          obtain ⟨s, hsmem, hq⟩ := scanRows_some_mem c2 p2 rs q hs
          show r.price ≤ q
          rw [hq]
          exact hhead s hsmem
      · rw [scanRows, scanRows, if_neg h1, if_neg h2]
        exact ih htail

/-- Claim C3 (amended): for every catalog whose prices are non-decreasing
along the capacity-sorted scan order, increasing either the required
capacity or the required power never decreases the returned price, the
infinite sentinel counting as larger than every price. -/
theorem shs_price_monotone (cat : List ShsRow) (c1 p1 c2 p2 : ℚ)
    (hmono : (sortByCapacity cat).Pairwise (fun a b => a.price ≤ b.price))
    (hc : c1 ≤ c2) (hp : p1 ≤ p2) :
    priceLE (shs_price_for_load c1 p1 cat) (shs_price_for_load c2 p2 cat) :=
  scanRows_mono c1 p1 c2 p2 hc hp (sortByCapacity cat) hmono

/-- Witness for claim C3 (amended), on the specification's own two-unit
catalog, whose prices do ascend with capacity. -/
theorem shs_price_monotone_witness :
    ((sortByCapacity [⟨100, 50, 5⟩, ⟨300, 500, 50⟩]).Pairwise
        (fun a b => a.price ≤ b.price)
      ∧ (60 : ℚ) ≤ 70 ∧ (5 : ℚ) ≤ 10)
    ∧ priceLE (shs_price_for_load 60 5 [⟨100, 50, 5⟩, ⟨300, 500, 50⟩])
        (shs_price_for_load 70 10 [⟨100, 50, 5⟩, ⟨300, 500, 50⟩]) :=
  ⟨⟨by decide, by decide, by decide⟩,
    shs_price_monotone [⟨100, 50, 5⟩, ⟨300, 500, 50⟩] 60 5 70 10
      (by decide) (by decide) (by decide)⟩

/-- Two link rows carry the same unordered endpoint pair. -/
def sameUndirectedPair (l1 l2 : Link) : Prop :=
  (l1.node_a = l2.node_a ∧ l1.node_b = l2.node_b)
  ∨ (l1.node_a = l2.node_b ∧ l1.node_b = l2.node_a)

instance (l1 l2 : Link) : Decidable (sameUndirectedPair l1 l2) :=
  inferInstanceAs (Decidable ((l1.node_a = l2.node_a ∧ l1.node_b = l2.node_b)
    ∨ (l1.node_a = l2.node_b ∧ l1.node_b = l2.node_a)))

theorem sameUndirectedPair_symm {l1 l2 : Link}
    (h : sameUndirectedPair l1 l2) : sameUndirectedPair l2 l1 := by
  rcases h with ⟨h1, h2⟩ | ⟨h1, h2⟩
  · exact Or.inl ⟨h1.symm, h2.symm⟩
  · exact Or.inr ⟨h2.symm, h1.symm⟩

/-- The endpoint of a link opposite to `node_index` (for a link touching
`node_index`). -/
def otherEnd (node_index : String) (l : Link) : String :=
  if l.node_a = node_index then l.node_b else l.node_a

theorem otherEnd_eq_same (x : String) {l1 l2 : Link}
    (h1 : l1.node_a = x ∨ l1.node_b = x) (h2 : l2.node_a = x ∨ l2.node_b = x)
    (heq : otherEnd x l1 = otherEnd x l2) : sameUndirectedPair l1 l2 := by
  unfold otherEnd at heq
  by_cases ha1 : l1.node_a = x
  · by_cases ha2 : l2.node_a = x
    · rw [if_pos ha1, if_pos ha2] at heq
      exact Or.inl ⟨ha1.trans ha2.symm, heq⟩
    · have hb2 : l2.node_b = x := h2.resolve_left ha2
      rw [if_pos ha1, if_neg ha2] at heq
      exact Or.inr ⟨ha1.trans hb2.symm, heq⟩
  · have hb1 : l1.node_b = x := h1.resolve_left ha1
    by_cases ha2 : l2.node_a = x
    · rw [if_neg ha1, if_pos ha2] at heq
      exact Or.inr ⟨heq, hb1.trans ha2.symm⟩
    · have hb2 : l2.node_b = x := h2.resolve_left ha2
      rw [if_neg ha1, if_neg ha2] at heq
      exact Or.inl ⟨heq, hb1.trans hb2.symm⟩

theorem mem_touching_map_iff (x z : String) (links : List Link) :
    z ∈ (links.filter (fun l => l.node_a == x || l.node_b == x)).map (otherEnd x)
      ↔ z ∈ neighoring_nodes x links := by
  constructor
  · intro hz
    obtain ⟨l, hlf, hoe⟩ := List.mem_map.mp hz
    have hlmem : l ∈ links := (List.mem_filter.mp hlf).1
    have htouch : l.node_a = x ∨ l.node_b = x := by
      have := (List.mem_filter.mp hlf).2
      simpa using this
    refine List.mem_filter.mpr ⟨?_, ?_⟩
    · rw [linkEndpointLabels, List.mem_dedup, List.mem_append]
      by_cases ha : l.node_a = x
      · right
        exact List.mem_map.mpr ⟨l, hlmem, by rw [otherEnd, if_pos ha] at hoe; exact hoe⟩
      · left
        exact List.mem_map.mpr ⟨l, hlmem, by rw [otherEnd, if_neg ha] at hoe; exact hoe⟩
    · rw [are_nodes_connected, List.any_eq_true]
      refine ⟨l, hlmem, ?_⟩
      simp only [Bool.or_eq_true, Bool.and_eq_true, beq_iff_eq]
      by_cases ha : l.node_a = x
      · left
        exact ⟨ha, by rw [otherEnd, if_pos ha] at hoe; exact hoe⟩
      · have hb : l.node_b = x := htouch.resolve_left ha
        right
        exact ⟨by rw [otherEnd, if_neg ha] at hoe; exact hoe, hb⟩
  · intro hz
    have hc : are_nodes_connected x z links = true := (List.mem_filter.mp hz).2
    rw [are_nodes_connected, List.any_eq_true] at hc
    obtain ⟨l, hl, hcond⟩ := hc
    simp only [Bool.or_eq_true, Bool.and_eq_true, beq_iff_eq] at hcond
    refine List.mem_map.mpr ⟨l, ?_, ?_⟩
    · refine List.mem_filter.mpr ⟨hl, ?_⟩
      simp only [Bool.or_eq_true, beq_iff_eq]
      rcases hcond with ⟨ha, _⟩ | ⟨_, hb⟩
      · exact Or.inl ha
      · exact Or.inr hb
    · rcases hcond with ⟨ha, hb⟩ | ⟨ha, hb⟩
      · rw [otherEnd, if_pos ha]
        exact hb
      · by_cases hax : l.node_a = x
        · rw [otherEnd, if_pos hax]
          exact hb.trans (hax.symm.trans ha)
        · rw [otherEnd, if_neg hax]
          exact ha

/-- Claim C7: in a link set where each unordered endpoint pair appears at
most once, the degree count equals the length of the neighbour list; and a
node touching no link gets degree 0 and an empty neighbour list, not an
error. -/
theorem count_connections_eq_neighbors_length (x : String) (links : List Link)
    (hnodup : links.Pairwise (fun l1 l2 => ¬ sameUndirectedPair l1 l2)) :
    count_number_of_connections x links = (neighoring_nodes x links).length
    ∧ ((∀ l ∈ links, l.node_a ≠ x ∧ l.node_b ≠ x) →
        count_number_of_connections x links = 0 ∧ neighoring_nodes x links = []) := by
  constructor
  · set T := links.filter (fun l => l.node_a == x || l.node_b == x) with hT
    have hTpw : T.Pairwise (fun l1 l2 => ¬ sameUndirectedPair l1 l2) :=
      hnodup.filter _
    have hTtouch : ∀ l ∈ T, l.node_a = x ∨ l.node_b = x := by
      intro l hl
      have := (List.mem_filter.mp hl).2
      simpa using this
    have hTnodup : T.Nodup := by
      refine List.Pairwise.imp ?_ hTpw
      intro a b hns heq
      subst heq
      exact hns (Or.inl ⟨rfl, rfl⟩)
    have hmapnodup : (T.map (otherEnd x)).Nodup := by
      refine List.Nodup.map_on ?_ hTnodup
      intro a ha b hb hfeq
      by_contra hne
      have hsymm : Symmetric (fun l1 l2 : Link => ¬ sameUndirectedPair l1 l2) := by
        intro a b hab hba
        exact hab (sameUndirectedPair_symm hba)
      exact (List.Pairwise.forall hsymm hTpw) ha hb hne
        (otherEnd_eq_same x (hTtouch a ha) (hTtouch b hb) hfeq)
    have hnn : (neighoring_nodes x links).Nodup :=
      List.Nodup.filter _ (List.nodup_dedup _)
    have hperm : (T.map (otherEnd x)).Perm (neighoring_nodes x links) :=
      (List.perm_ext_iff_of_nodup hmapnodup hnn).mpr
        (fun z => mem_touching_map_iff x z links)
    calc count_number_of_connections x links
        = T.length := by rw [count_number_of_connections]
      _ = (T.map (otherEnd x)).length := (List.length_map _ _).symm
      _ = (neighoring_nodes x links).length := hperm.length_eq
  · intro hnone
    constructor
    · rw [count_number_of_connections]
      have hnil : links.filter (fun l => l.node_a == x || l.node_b == x) = [] :=
        List.filter_eq_nil_iff.mpr (fun l hl => by simpa using hnone l hl)
      rw [hnil]
      rfl
    · rw [neighoring_nodes]
      refine List.filter_eq_nil_iff.mpr ?_
      intro z _ hc
      rw [are_nodes_connected, List.any_eq_true] at hc
      obtain ⟨l, hl, hcond⟩ := hc
      simp only [Bool.or_eq_true, Bool.and_eq_true, beq_iff_eq] at hcond
      rcases hcond with ⟨ha, _⟩ | ⟨_, hb⟩
      · exact (hnone l hl).1 ha
      · exact (hnone l hl).2 hb

/-- Witness for claim C7: the star link set has no duplicate unordered pair;
center `A` has degree 3 and a three-element neighbour list. -/
theorem count_connections_eq_neighbors_length_witness :
    starLinks.Pairwise (fun l1 l2 => ¬ sameUndirectedPair l1 l2)
    ∧ count_number_of_connections "A" starLinks
        = (neighoring_nodes "A" starLinks).length :=
  ⟨by decide,
    (count_connections_eq_neighbors_length "A" starLinks (by decide)).1⟩
